import Mathlib

/-
  Verification of the dictionary/vocabulary lookup service
  (src/backend/services/dictionary_handler.py) against its specification.

  The Python module is embedded shallowly:
  * Python strings are Lean `String`s; character-level work uses `List Char`
    (Python indexing/slicing is by code point, as is `String.data`).
  * Python dicts used as records (`entry`) become the structure `Entry`;
    a key that may be absent is an `Option` field, `none` meaning the key
    is not present in the dict.
  * The two index dicts and the compound-frequency dict become association
    lists (`alGet` / `alUpd`), which preserve Python's insertion-order
    semantics for iteration.
  * Entry dicts are shared between `simplified_index` and
    `traditional_index` in the source, and `_calculate_frequency_scores`
    mutates them in place, so entries live in an explicit heap
    (`DH.store : List Entry`); the index tables hold addresses into it.
  * `lookup` threads the heap, so that mutation (or absence of mutation)
    of stored entries is observable.  The copies made by
    `_sort_by_frequency` (`entry.copy()`) are fresh, unaliased objects;
    they are modelled as values and appended to the heap when returned.
  * The fallback translator and the pypinyin library are external
    collaborators: they are parameters of `lookup`; a raised exception is
    `Except.error`.
-/

namespace DictSpec

/-! ### Python string helpers (str.strip, str.split, slicing) -/

/-- Python `s.strip()` (over code points). -/
def stripWs (cs : List Char) : List Char :=
  ((cs.dropWhile Char.isWhitespace).reverse.dropWhile Char.isWhitespace).reverse

/-- Python `s.strip("/")`. -/
def stripSlashes (cs : List Char) : List Char :=
  ((cs.dropWhile (fun c => c = '/')).reverse.dropWhile (fun c => c = '/')).reverse

def splitWsAux (c : Char) (acc : List (List Char)) : List (List Char) :=
  if c.isWhitespace then [] :: acc
  else
    match acc with
    | [] => [[c]]
    | w :: ws => (c :: w) :: ws

/-- Python `s.split()` (no argument): split on whitespace runs, no empty parts. -/
def pyWords (cs : List Char) : List (List Char) :=
  (cs.foldr splitWsAux []).filter (fun w => !w.isEmpty)

def splitSepAux (sep : Char) (c : Char) (acc : List (List Char)) : List (List Char) :=
  if c = sep then [] :: acc
  else
    match acc with
    | [] => [[c]]
    | w :: ws => (c :: w) :: ws

/-- Python `s.split(sep)` for a one-character separator (keeps empty parts). -/
def splitOnChar (sep : Char) (cs : List Char) : List (List Char) :=
  cs.foldr (splitSepAux sep) [[]]

/-! ### `_normalize_pinyin`: `re.sub(r"(?<=[a-zA-ZüÜ])5\b", "", pinyin)` -/

def isPinyinLetter (c : Char) : Bool :=
  ('a' ≤ c && c ≤ 'z') || ('A' ≤ c && c ≤ 'Z') || c = 'ü' || c = 'Ü'

/-- The CJK range `[一-鿿]` used throughout the source. -/
def isCJK (c : Char) : Bool :=
  0x4e00 ≤ c.toNat && c.toNat ≤ 0x9fff

/-- Python regex word character (`\w`), restricted to the character classes
    that can occur next to a tone digit in this data: ASCII alphanumerics,
    underscore, and CJK ideographs. -/
def isWordChar (c : Char) : Bool :=
  c.isAlphanum || c = '_' || isCJK c

/-- One left-to-right pass of `re.sub`; `prev` is the character of the
    original string just before the current position (the lookbehind reads
    the original text). -/
def npAux : Option Char → List Char → List Char
  | _, [] => []
  | prev, c :: rest =>
    if c = '5'
        && (match prev with | some p => isPinyinLetter p | none => false)
        && (match rest with | [] => true | d :: _ => !isWordChar d) then
      npAux (some c) rest
    else
      c :: npAux (some c) rest

def normalize_pinyin (cs : List Char) : List Char := npAux none cs

/-! ### Classifier extraction:
    `re.findall(r"([一-鿿]+)(?:\[([一-鿿]+)\])?\[(.+?)\]", cl_part)` -/

/-- Match the lazy tail `(.+?)\]` once at least one group character `acc`
    has been consumed: succeed at the first `]`, consume any non-newline
    character otherwise. -/
def lazyScan : List Char → List Char → Option (List Char × List Char)
  | _, [] => none
  | acc, x :: xs =>
    if x = ']' then some (acc.reverse, xs)
    else if x = '\n' then none
    else lazyScan (x :: acc) xs

/-- Match `\[(.+?)\]` at the head of the input, returning the group and the
    remaining input. -/
def matchBracketLazy : List Char → Option (List Char × List Char)
  | '[' :: c1 :: rest => if c1 = '\n' then none else lazyScan [c1] rest
  | _ => none

/-- Match the classifier pattern once at the head of the input.  The greedy
    CJK groups cannot usefully backtrack (shrinking one leaves a CJK
    character where a bracket is required), so they are maximal runs; the
    optional group backtracks to empty when the final bracket group fails
    after it. -/
def clMatchOne (cs : List Char) :
    Option ((List Char × Option (List Char) × List Char) × List Char) :=
  let r1 := cs.takeWhile isCJK
  if r1.isEmpty then none
  else
    let rest1 := cs.dropWhile isCJK
    let withOpt :=
      match rest1 with
      | '[' :: rest2 =>
        let r2 := rest2.takeWhile isCJK
        if r2.isEmpty then none
        else
          match rest2.dropWhile isCJK with
          | ']' :: rest3 =>
            match matchBracketLazy rest3 with
            | some (g3, rem) => some ((r1, some r2, g3), rem)
            | none => none
          | _ => none
      | _ => none
    match withOpt with
    | some m => some m
    | none =>
      match matchBracketLazy rest1 with
      | some (g3, rem) => some ((r1, none, g3), rem)
      | none => none

/-- Leftmost, non-overlapping scan of `re.findall`.  Each successful match
    consumes at least four characters, so `cs.length` steps of fuel always
    suffice. -/
def clFindAllAux : Nat → List Char → List (List Char × Option (List Char) × List Char)
  | 0, _ => []
  | _, [] => []
  | fuel + 1, c :: tail =>
    match clMatchOne (c :: tail) with
    | some (m, rem) => m :: clFindAllAux fuel rem
    | none => clFindAllAux fuel tail

def clFindAll (cs : List Char) : List (List Char × Option (List Char) × List Char) :=
  clFindAllAux cs.length cs

/-- `f"{trad}[{simp}][{pinyin}]" if simp else f"{trad}[{pinyin}]"`; the
    optional group, when it participates, is a nonempty CJK run, so
    `if simp` is its presence. -/
def clRender : List Char × Option (List Char) × List Char → List Char
  | (t, some s, p) => t ++ '[' :: (s ++ ']' :: '[' :: (p ++ [']']))
  | (t, none, p) => t ++ '[' :: (p ++ [']'])

/-! ### Entries -/

/-- One entry dict.  `Option` fields model dict keys that are present only
    sometimes: parsed entries carry `classifier`/`char_count`/`is_compound`
    (value possibly `None`, hence the nested `Option` for `classifier`),
    generated entries do not; `frequency_score`, `sort_score` and
    `confidence` are attached later. -/
structure Entry where
  is_generated : Bool
  simplified : String
  traditional : String
  pinyin : String
  definitions : List String
  message : String
  classifier : Option (Option (List String)) := none
  char_count : Option Nat := none
  is_compound : Option Bool := none
  frequency_score : Option Nat := none
  sort_score : Option Nat := none
  confidence : Option String := none
deriving DecidableEq, Repr

/-- Placeholder for reading a heap address; all reachable reads are
    in-bounds (see the index invariants proved below). -/
def defaultEntry : Entry :=
  { is_generated := false, simplified := "", traditional := "", pinyin := "",
    definitions := [], message := "" }

/-- `meaning.startswith("CL:")`. -/
def isCLFrag : List Char → Bool
  | 'C' :: 'L' :: ':' :: _ => true
  | _ => false

/-- One iteration of the `for meaning in meanings_raw.split("/")` loop:
    accumulates `(definitions, classifier)`. -/
def clStep (acc : List (List Char) × Option (List (List Char))) (mRaw : List Char) :
    List (List Char) × Option (List (List Char)) :=
  let m := stripWs mRaw
  if m.isEmpty then acc
  else if isCLFrag m then
    let ms := clFindAll (m.drop 3)
    if ms.isEmpty then acc else (acc.1, some (ms.map clRender))
  else (acc.1 ++ [m], acc.2)

/-- `_parse_line`.  The `try`/`except` of the source returns `None` on any
    per-line failure; every operation below is total, so the embedding
    returns `none` exactly at the source's explicit `return None` points. -/
def parse_line (line : String) : Option Entry :=
  let cs := line.data
  match cs.findIdx? (fun c => c = '['), cs.findIdx? (fun c => c = ']') with
  | some bs, some be =>
    match pyWords (cs.take bs) with
    | tradW :: simpW :: _ =>
      let raw_pinyin := stripWs ((cs.drop (bs + 1)).take (be - (bs + 1)))
      let py := normalize_pinyin raw_pinyin
      let meanings_raw := stripSlashes (stripWs (cs.drop (be + 1)))
      let frags := splitOnChar '/' meanings_raw
      let dc := frags.foldl clStep ([], none)
      some { is_generated := false,
             simplified := ⟨simpW⟩,
             traditional := ⟨tradW⟩,
             pinyin := ⟨py⟩,
             definitions := dc.1.map (fun w => (⟨w⟩ : String)),
             classifier := some (dc.2.map (fun l => l.map (fun w => (⟨w⟩ : String)))),
             char_count := some simpW.length,
             is_compound := some (decide (1 < simpW.length)),
             message := "Phrase found in dictionary" }
    | _ => none
  | _, _ => none

/-! ### Association lists (Python dicts, insertion-ordered) -/

def alGet {α β : Type} [DecidableEq α] : List (α × β) → α → Option β
  | [], _ => none
  | (k, v) :: rest, k2 => if k = k2 then some v else alGet rest k2

/-- Update the value at a key through `f` (receiving `none` when the key is
    absent); a fresh key is appended at the end, as in a Python dict. -/
def alUpd {α β : Type} [DecidableEq α] (f : Option β → β) :
    List (α × β) → α → List (α × β)
  | [], k2 => [(k2, f none)]
  | (k, v) :: rest, k2 =>
    if k = k2 then (k, f (some v)) :: rest else (k, v) :: alUpd f rest k2

/-! ### The handler state -/

/-- The mutable state of `DictionaryHandler` relevant to the lexicon:
    the heap of entry dicts plus the three index dicts (addresses refer
    into `store`). -/
structure DH where
  store : List Entry
  simplified_index : List (String × List Nat)
  traditional_index : List (String × List Nat)
  compound_count : List ((String × String) × Nat)
deriving DecidableEq, Repr

def dhInit : DH := ⟨[], [], [], []⟩

/-- Python `simplified[0]` as a one-character string. -/
def firstCharStr (s : String) : String := ⟨s.data.take 1⟩

/-- `_index_entry`: append the (fresh) entry to the simplified list, to the
    traditional list when the forms differ, and bump the compound counter
    keyed by `(first character, full pinyin of the entry)` for compounds. -/
def index_entry (dh : DH) (e : Entry) : DH :=
  let a := dh.store.length
  let si := alUpd (fun o => o.getD [] ++ [a]) dh.simplified_index e.simplified
  let ti :=
    if e.traditional ≠ e.simplified then
      alUpd (fun o => o.getD [] ++ [a]) dh.traditional_index e.traditional
    else dh.traditional_index
  let cc :=
    if e.is_compound.getD false then
      alUpd (fun o => o.getD 0 + 1) dh.compound_count (firstCharStr e.simplified, e.pinyin)
    else dh.compound_count
  { store := dh.store ++ [e], simplified_index := si,
    traditional_index := ti, compound_count := cc }

/-- `entry["frequency_score"] = self.compound_count.get((word, entry["pinyin"]), 0)`
    for the entry at heap address `a`. -/
def scoreAddr (cc : List ((String × String) × Nat)) (w : String)
    (st : List Entry) (a : Nat) : List Entry :=
  let e := st.getD a defaultEntry
  st.set a { e with frequency_score := some ((alGet cc (w, e.pinyin)).getD 0) }

/-- One iteration of the outer loop of `_calculate_frequency_scores`. -/
def scoreKey (cc : List ((String × String) × Nat)) (st : List Entry)
    (p : String × List Nat) : List Entry :=
  if p.2.length ≤ 1 then st
  else if 1 < p.1.length then st
  else p.2.foldl (scoreAddr cc p.1) st

/-- `_calculate_frequency_scores`: a second pass over `simplified_index`,
    mutating the stored entry dicts in place. -/
def calculate_frequency_scores (dh : DH) : DH :=
  { dh with store := dh.simplified_index.foldl (scoreKey dh.compound_count) dh.store }

/-- The skip test of the `_load_dictionary` loop:
    `line.startswith("#") or line.startswith("%") or not line.strip()`. -/
def lineSkipped (l : String) : Bool :=
  (match l.data with
   | '#' :: _ => true
   | '%' :: _ => true
   | _ => false)
  || (stripWs l.data).isEmpty

/-- One line of the `_load_dictionary` loop: `some e` exactly when the line
    is indexed. -/
def processLine (l : String) : Option Entry :=
  if lineSkipped l then none else parse_line l

/-- The loop body of `_load_dictionary` over the file's lines. -/
def load_dictionary (lines : List String) : DH :=
  lines.foldl
    (fun dh l =>
      match processLine l with
      | some e => index_entry dh e
      | none => dh)
    dhInit

/-- `__init__`: load, then score (two phases — every entry is indexed before
    any `frequency_score` is computed). -/
def buildFromLines (lines : List String) : DH :=
  calculate_frequency_scores (load_dictionary lines)

/-- The same two-phase build from already-parsed entries. -/
def buildFrom (es : List Entry) : DH :=
  calculate_frequency_scores (es.foldl index_entry dhInit)

/-! ### Lookup -/

/-- `_is_chinese`: `re.search(r"[一-鿿]", text)`. -/
def is_chinese (s : String) : Bool := s.data.any isCJK

/-- `_exact_lookup`: simplified table first, then traditional; `none` is
    Python's `None` (the source returns `None`, not `[]`, when the word is
    absent from both). -/
def exact_lookup (dh : DH) (word : String) : Option (List Nat) :=
  match alGet dh.simplified_index word with
  | some l => some l
  | none => alGet dh.traditional_index word

/-- `entry.copy()` plus the `sort_score` annotation of `_sort_by_frequency`. -/
def copyScore (word : String) (e : Entry) : Entry :=
  { e with sort_score := some (if word.length = 1 then e.frequency_score.getD 0 else 0) }

/-- `x["sort_score"]` (always present on the copies being sorted). -/
def sortKey (e : Entry) : Nat := e.sort_score.getD 0

/-- The confidence-labelling tail of `_sort_by_frequency`; `none` models the
    `IndexError` that `sorted_entries[0]` raises on an empty list (never
    reached from `lookup`, which guards on a non-empty entry list). -/
def applyLabels : List Entry → Option (List Entry)
  | [] => none
  | [e] => some [{ e with confidence := some "only meaning" }]
  | e :: rest =>
    if 0 < sortKey e then
      some ({ e with confidence := some "most common" } ::
        rest.map (fun x => { x with confidence := some "less common" }))
    else
      some ((e :: rest).map (fun x => { x with confidence := some "see all meanings" }))

/-- The sort comparator: `x` may precede `y` when its key is at least
    `y`'s; ties are `true`, making the merge sort stable in source order,
    exactly as Python's `list.sort(key=..., reverse=True)`. -/
def sortLE (x y : Entry) : Bool := decide (sortKey y ≤ sortKey x)

/-- `_sort_by_frequency`: copy, annotate, stable-sort descending by
    `sort_score` (Python's `list.sort` is a stable merge sort;
    `reverse=True` keeps ties in source order), label. -/
def sort_by_frequency (entries : List Entry) (word : String) : Option (List Entry) :=
  let annotated := entries.map (copyScore word)
  let sorted := annotated.mergeSort sortLE
  applyLabels sorted

/-- `_not_found`. -/
structure LookupResult where
  found : Bool
  query : String
  entries : List Nat
  count : Nat
  message : Option String := none
deriving DecidableEq, Repr

def not_found (word : String) : LookupResult :=
  { found := false, query := word, entries := [], count := 0,
    message := some "Term not found" }

/-- `" ".join(items)`. -/
def sjoin (sep : String) : List String → String
  | [] => ""
  | [x] => x
  | x :: xs => x ++ sep ++ sjoin sep xs

/-- `lookup` (the unused `context` parameter of the source is omitted).
    `pinyinOf` models `[item[0] for item in pypinyin.pinyin(w, TONE3)]`;
    `translate` models `_translate_phrase` (an `Except.error` is an
    exception raised by the fallback translator — model load failure or
    inference failure).  The source has no `try`/`except` around the
    translator call, so the error is returned as the raised exception of
    `lookup` itself.  The second component is the heap state after the
    call. -/
def lookup (pinyinOf : String → List String)
    (translate : String → Except String String)
    (dh : DH) (chinese_word : String) : Except String LookupResult × DH :=
  if !is_chinese chinese_word then
    (Except.ok (not_found chinese_word), dh)
  else
    let addrs := (exact_lookup dh chinese_word).getD []
    if !addrs.isEmpty then
      let vals := addrs.map (fun a => dh.store.getD a defaultEntry)
      match sort_by_frequency vals chinese_word with
      | some sortedEntries =>
        (Except.ok { found := true, query := chinese_word,
                     entries := List.range' dh.store.length sortedEntries.length,
                     count := sortedEntries.length },
         { dh with store := dh.store ++ sortedEntries })
      | none => (Except.error "IndexError", dh)
    else
      if is_chinese chinese_word then
        let pinyin_str := sjoin " " (pinyinOf chinese_word)
        match translate chinese_word with
        | Except.error err => (Except.error err, dh)
        | Except.ok translation =>
          (Except.ok { found := true, query := chinese_word,
                       entries := [dh.store.length], count := 1 },
           { dh with store := dh.store ++
               [{ is_generated := true, simplified := chinese_word,
                  traditional := chinese_word, pinyin := pinyin_str,
                  definitions := [translation],
                  message := "Phrase not in dictionary; generated via OPUS-MT.",
                  confidence := some "generated" }] })
      else
        (Except.ok (not_found chinese_word), dh)

/-! ### The fallback translator gateway's load path (`_get_translator`)

    `_do_inference` runs on `eventlet.tpool` worker threads, so two
    `translate` calls execute `_get_translator` concurrently; the shared
    variables are `loading_lock` and `translator`.  Each atomic step reads
    or writes one shared variable, mirroring one statement of the source;
    the scheduler (which thread steps next) is the free choice. -/

inductive GPC where
  /-- about to evaluate `if self.loading_lock:` -/
  | readLock
  /-- about to execute `eventlet.sleep(0.1)` (a cooperative yield) -/
  | doSleep
  /-- about to evaluate `if self.translator is None:` -/
  | readTr
  /-- about to execute `self.loading_lock = True` -/
  | setLock
  /-- inside the `try:` block, performing the model load -/
  | doLoad
  /-- about to execute the `finally: self.loading_lock = False` -/
  | unlock
  /-- past the load block (timer management and `return`) -/
  | done
deriving DecidableEq, Repr

structure GWState where
  lock : Bool
  loaded : Bool
  pcA : GPC
  pcB : GPC
deriving DecidableEq, Repr

/-- One atomic step of a single caller of `_get_translator`. -/
def threadStep : GPC → Bool → Bool → GPC × Bool × Bool
  | .readLock, lock, tr => (if lock then .doSleep else .readTr, lock, tr)
  | .doSleep, lock, tr => (.readTr, lock, tr)
  | .readTr, lock, tr => (if tr then .done else .setLock, lock, tr)
  | .setLock, _, tr => (.doLoad, true, tr)
  | .doLoad, lock, _ => (.unlock, lock, true)
  | .unlock, _, tr => (.done, false, tr)
  | .done, lock, tr => (.done, lock, tr)

/-- Interleaving step: the scheduler picks caller A (`true`) or B. -/
def gwStep (s : GWState) (runA : Bool) : GWState :=
  if runA then
    let r := threadStep s.pcA s.lock s.loaded
    { s with pcA := r.1, lock := r.2.1, loaded := r.2.2 }
  else
    let r := threadStep s.pcB s.lock s.loaded
    { s with pcB := r.1, lock := r.2.1, loaded := r.2.2 }

def gwRun (s : GWState) (sched : List Bool) : GWState := sched.foldl gwStep s

/-- Both callers enter with the backend unloaded. -/
def gwInit : GWState := { lock := false, loaded := false, pcA := .readLock, pcB := .readLock }


/-! ### Projections and sample data used in the statements below -/

/-- Projection dropping both ranking annotations (`sort_score`,
    `confidence`); two entries with equal image are the same underlying
    lexicon data.  Used to state order preservation of the ranking step. -/
def eraseAnn (e : Entry) : Entry := { e with sort_score := none, confidence := none }

/-- All heap addresses stored in an index table. -/
def idxAddrs (idx : List (String × List Nat)) : List Nat :=
  (idx.map Prod.snd).flatten

/-- Sample single-character entries (two readings) and one compound, used
    by the witnesses. -/
def sampleHigh : Entry :=
  { is_generated := false, simplified := "打", traditional := "打", pinyin := "da3",
    definitions := ["to hit"], message := "Phrase found in dictionary",
    classifier := some none, char_count := some 1, is_compound := some false,
    frequency_score := some 5 }

def sampleLow : Entry :=
  { is_generated := false, simplified := "打", traditional := "打", pinyin := "da2",
    definitions := ["dozen"], message := "Phrase found in dictionary",
    classifier := some none, char_count := some 1, is_compound := some false,
    frequency_score := some 1 }

def sampleCompound : Entry :=
  { is_generated := false, simplified := "打电", traditional := "打電", pinyin := "da3",
    definitions := ["to phone"], message := "Phrase found in dictionary",
    classifier := some none, char_count := some 2, is_compound := some true }

/-! ## Helper lemmas -/

theorem applyLabels_some_length {l l2 : List Entry} (h : applyLabels l = some l2) :
    l2.length = l.length ∧ 0 < l2.length := by
  match l with
  | [] => simp [applyLabels] at h
  | [e] =>
    simp only [applyLabels, Option.some.injEq] at h
    subst h; simp
  | a :: b :: t =>
    simp only [applyLabels] at h
    split at h <;> (cases h; simp)

theorem clStep_fold (frags : List (List Char)) (d0 : List (List Char))
    (c0 : Option (List (List Char))) :
    (frags.foldl clStep (d0, c0)).1 =
      d0 ++ (frags.map stripWs).filter (fun m => !m.isEmpty && !isCLFrag m) := by
  induction frags generalizing d0 c0 with
  | nil => simp
  | cons f rest ih =>
    simp only [List.foldl_cons, List.map_cons, List.filter_cons]
    by_cases he : (stripWs f).isEmpty
    · simp [clStep, he, ih]
    · by_cases hcl : isCLFrag (stripWs f)
      · by_cases hm : (clFindAll ((stripWs f).drop 3)).isEmpty <;>
          simp [clStep, he, hcl, hm, ih]
      · simp [clStep, he, hcl, ih, List.append_assoc]

theorem applyLabels_freq {l l2 : List Entry} (h : applyLabels l = some l2) :
    l2.map Entry.frequency_score = l.map Entry.frequency_score := by
  match l with
  | [] => simp [applyLabels] at h
  | [e] => simp only [applyLabels, Option.some.injEq] at h; subst h; rfl
  | a :: b :: t =>
    simp only [applyLabels] at h
    split at h <;> cases h <;>
      simp only [List.map_cons, List.map_map] <;>
      exact congrArg (List.cons _) (congrArg (List.cons _)
        (List.map_congr_left fun x _ => rfl))

theorem applyLabels_eraseAnn {l l2 : List Entry} (h : applyLabels l = some l2) :
    l2.map eraseAnn = l.map eraseAnn := by
  match l with
  | [] => simp [applyLabels] at h
  | [e] => simp only [applyLabels, Option.some.injEq] at h; subst h; rfl
  | a :: b :: t =>
    simp only [applyLabels] at h
    split at h <;> cases h <;>
      simp only [List.map_cons, List.map_map] <;>
      exact congrArg (List.cons _) (congrArg (List.cons _)
        (List.map_congr_left fun x _ => rfl))

theorem sortLE_trans : ∀ a b c : Entry, sortLE a b → sortLE b c → sortLE a c := by
  intro a b c hab hbc
  simp only [sortLE, decide_eq_true_eq] at *
  omega

theorem sortLE_total : ∀ a b : Entry, sortLE a b || sortLE b a := by
  intro a b
  simp only [sortLE]
  rcases Nat.le_total (sortKey b) (sortKey a) with h | h <;> simp [h]

theorem alGet_alUpd {α β : Type} [DecidableEq α] (f : Option β → β)
    (m : List (α × β)) (k k2 : α) :
    alGet (alUpd f m k) k2 = if k = k2 then some (f (alGet m k)) else alGet m k2 := by
  induction m with
  | nil => by_cases h : k = k2 <;> simp [alUpd, alGet, h]
  | cons p rest ih =>
    obtain ⟨k1, v⟩ := p
    by_cases h1 : k1 = k
    · subst h1
      by_cases h2 : k1 = k2
      · subst h2
        simp [alUpd, alGet]
      · simp [alUpd, alGet, h2]
    · by_cases h2 : k1 = k2
      · subst h2
        simp [alUpd, alGet, h1, show ¬ k = k1 from fun hh => h1 hh.symm]
      · simp [alUpd, alGet, h1, h2, ih]

theorem alGet_mem {α β : Type} [DecidableEq α] {m : List (α × β)} {k : α} {v : β}
    (h : alGet m k = some v) : (k, v) ∈ m := by
  induction m with
  | nil => simp [alGet] at h
  | cons p rest ih =>
    obtain ⟨k1, v1⟩ := p
    by_cases h1 : k1 = k
    · subst h1
      simp [alGet] at h
      simp [h]
    · simp only [alGet, h1, if_neg h1] at h
      exact List.mem_cons_of_mem _ (ih h)

theorem mem_idxAddrs {m : List (String × List Nat)} {k : String} {l : List Nat}
    (hm : (k, l) ∈ m) {a : Nat} (ha : a ∈ l) : a ∈ idxAddrs m := by
  simp only [idxAddrs, List.mem_flatten]
  exact ⟨l, List.mem_map.mpr ⟨(k, l), hm, rfl⟩, ha⟩

theorem idxAddrs_alUpd_perm (m : List (String × List Nat)) (k : String) (a : Nat) :
    List.Perm (idxAddrs (alUpd (fun o => o.getD [] ++ [a]) m k)) (a :: idxAddrs m) := by
  induction m with
  | nil => simp [alUpd, idxAddrs]
  | cons p rest ih =>
    obtain ⟨k1, v⟩ := p
    by_cases h : k1 = k
    · have h1 : idxAddrs (alUpd (fun o => o.getD [] ++ [a]) ((k1, v) :: rest) k)
          = v ++ a :: idxAddrs rest := by
        simp [alUpd, h, idxAddrs, List.append_assoc]
      have h2 : idxAddrs ((k1, v) :: rest) = v ++ idxAddrs rest := rfl
      rw [h1, h2]
      exact List.perm_middle
    · have h1 : idxAddrs (alUpd (fun o => o.getD [] ++ [a]) ((k1, v) :: rest) k)
          = v ++ idxAddrs (alUpd (fun o => o.getD [] ++ [a]) rest k) := by
        simp [alUpd, h, idxAddrs]
      have h2 : idxAddrs ((k1, v) :: rest) = v ++ idxAddrs rest := rfl
      rw [h1, h2]
      exact (List.Perm.append_left v ih).trans List.perm_middle

theorem index_inv (es : List Entry) (dh : DH)
    (h1 : (idxAddrs dh.simplified_index).Nodup)
    (h2 : ∀ a ∈ idxAddrs dh.simplified_index, a < dh.store.length) :
    (idxAddrs ((es.foldl index_entry dh).simplified_index)).Nodup ∧
    ∀ a ∈ idxAddrs ((es.foldl index_entry dh).simplified_index),
      a < (es.foldl index_entry dh).store.length := by
  induction es generalizing dh with
  | nil => exact ⟨h1, h2⟩
  | cons e rest ih =>
    simp only [List.foldl_cons]
    refine ih (index_entry dh e) ?_ ?_
    · have hperm := idxAddrs_alUpd_perm dh.simplified_index e.simplified dh.store.length
      have : (idxAddrs (index_entry dh e).simplified_index).Perm
          (dh.store.length :: idxAddrs dh.simplified_index) := hperm
      rw [this.nodup_iff]
      refine List.Nodup.cons ?_ h1
      intro hmem
      exact absurd (h2 _ hmem) (lt_irrefl _)
    · intro a ha
      have hperm := idxAddrs_alUpd_perm dh.simplified_index e.simplified dh.store.length
      have ha2 : a ∈ dh.store.length :: idxAddrs dh.simplified_index := hperm.mem_iff.mp ha
      have hlen : (index_entry dh e).store.length = dh.store.length + 1 := by
        simp [index_entry]
      rw [hlen]
      rcases List.mem_cons.mp ha2 with rfl | ha3
      · omega
      · exact Nat.lt_succ_of_lt (h2 a ha3)

theorem cc_fold (es : List Entry) (dh : DH) (key : String × String) :
    (alGet ((es.foldl index_entry dh).compound_count) key).getD 0 =
      (alGet dh.compound_count key).getD 0 +
      (es.filter (fun e => e.is_compound.getD false &&
        decide ((firstCharStr e.simplified, e.pinyin) = key))).length := by
  induction es generalizing dh with
  | nil => simp
  | cons e rest ih =>
    simp only [List.foldl_cons]
    rw [ih (index_entry dh e)]
    have hcc0 : (index_entry dh e).compound_count =
        if e.is_compound.getD false then
          alUpd (fun o => o.getD 0 + 1) dh.compound_count
            (firstCharStr e.simplified, e.pinyin)
        else dh.compound_count := rfl
    by_cases hcomp : e.is_compound.getD false
    · by_cases hkey : (firstCharStr e.simplified, e.pinyin) = key
      · rw [List.filter_cons_of_pos (by simp [hcomp, hkey]),
          hcc0, if_pos hcomp, alGet_alUpd, if_pos hkey, hkey]
        simp only [Option.getD_some, List.length_cons]
        omega
      · rw [List.filter_cons_of_neg (by simp [hkey]),
          hcc0, if_pos hcomp, alGet_alUpd, if_neg hkey]
    · rw [List.filter_cons_of_neg (by simp [hcomp]), hcc0, if_neg hcomp]

theorem scoreAddr_length (cc : List ((String × String) × Nat)) (w : String)
    (st : List Entry) (b : Nat) : (scoreAddr cc w st b).length = st.length := by
  simp [scoreAddr]

theorem scoreAddr_getD_ne (cc : List ((String × String) × Nat)) (w : String)
    (st : List Entry) (b a : Nat) (h : a ≠ b) :
    (scoreAddr cc w st b).getD a defaultEntry = st.getD a defaultEntry := by
  simp only [scoreAddr, List.getD_eq_getElem?_getD]
  rw [List.getElem?_set_ne (fun hh => h hh.symm)]

theorem scoreFoldAddrs_length (cc : List ((String × String) × Nat)) (w : String)
    (addrs : List Nat) (st : List Entry) :
    (addrs.foldl (scoreAddr cc w) st).length = st.length := by
  induction addrs generalizing st with
  | nil => rfl
  | cons b rest ih => simp [List.foldl_cons, ih, scoreAddr_length]

theorem scoreFoldAddrs_getD_notmem (cc : List ((String × String) × Nat)) (w : String)
    (addrs : List Nat) (st : List Entry) (a : Nat) (h : a ∉ addrs) :
    (addrs.foldl (scoreAddr cc w) st).getD a defaultEntry = st.getD a defaultEntry := by
  induction addrs generalizing st with
  | nil => rfl
  | cons b rest ih =>
    simp only [List.foldl_cons]
    rw [ih _ (fun hh => h (List.mem_cons_of_mem _ hh))]
    exact scoreAddr_getD_ne cc w st b a (fun hh => h (hh ▸ List.mem_cons_self b rest))

theorem scoreFoldAddrs_getD_mem (cc : List ((String × String) × Nat)) (w : String)
    (addrs : List Nat) (st : List Entry) (a : Nat)
    (hmem : a ∈ addrs) (hnd : addrs.Nodup) (hlt : a < st.length) :
    (addrs.foldl (scoreAddr cc w) st).getD a defaultEntry =
      { st.getD a defaultEntry with
        frequency_score := some ((alGet cc (w, (st.getD a defaultEntry).pinyin)).getD 0) } := by
  induction addrs generalizing st with
  | nil => simp at hmem
  | cons b rest ih =>
    simp only [List.foldl_cons]
    rcases List.mem_cons.mp hmem with rfl | hmem2
    · rw [scoreFoldAddrs_getD_notmem cc w rest _ a (List.Nodup.not_mem hnd)]
      simp only [scoreAddr, List.getD_eq_getElem?_getD]
      rw [List.getElem?_set_self hlt]
      simp
    · rw [ih _ hmem2 (List.Nodup.of_cons hnd) (by rw [scoreAddr_length]; exact hlt)]
      rw [scoreAddr_getD_ne cc w st b a
        (fun hh => (List.Nodup.not_mem hnd) (hh ▸ hmem2))]

theorem scoreKey_length (cc : List ((String × String) × Nat)) (st : List Entry)
    (p : String × List Nat) : (scoreKey cc st p).length = st.length := by
  unfold scoreKey
  split
  · rfl
  · split
    · rfl
    · exact scoreFoldAddrs_length cc p.1 p.2 st

theorem scoreKey_getD_notmem (cc : List ((String × String) × Nat)) (st : List Entry)
    (p : String × List Nat) (a : Nat) (h : a ∉ p.2) :
    (scoreKey cc st p).getD a defaultEntry = st.getD a defaultEntry := by
  unfold scoreKey
  split
  · rfl
  · split
    · rfl
    · exact scoreFoldAddrs_getD_notmem cc p.1 p.2 st a h

theorem scoreKeys_fold_notmem (cc : List ((String × String) × Nat))
    (ps : List (String × List Nat)) (st : List Entry) (a : Nat)
    (h : a ∉ idxAddrs ps) :
    (ps.foldl (scoreKey cc) st).getD a defaultEntry = st.getD a defaultEntry := by
  induction ps generalizing st with
  | nil => rfl
  | cons p rest ih =>
    simp only [List.foldl_cons]
    have hsplit : idxAddrs (p :: rest) = p.2 ++ idxAddrs rest := rfl
    rw [hsplit] at h
    rw [ih _ (fun hh => h (List.mem_append_right _ hh))]
    exact scoreKey_getD_notmem cc st p a (fun hh => h (List.mem_append_left _ hh))

theorem scoreKeys_fold (cc : List ((String × String) × Nat))
    (ps : List (String × List Nat)) (st : List Entry)
    (w : String) (addrs : List Nat) (a : Nat)
    (hnd : (idxAddrs ps).Nodup)
    (hbd : ∀ x ∈ idxAddrs ps, x < st.length)
    (hmem : (w, addrs) ∈ ps) (hw : w.length = 1) (hlen : 1 < addrs.length)
    (ha : a ∈ addrs) :
    (ps.foldl (scoreKey cc) st).getD a defaultEntry =
      { st.getD a defaultEntry with
        frequency_score := some ((alGet cc (w, (st.getD a defaultEntry).pinyin)).getD 0) } := by
  induction ps generalizing st with
  | nil => simp at hmem
  | cons p rest ih =>
    have hsplit : idxAddrs (p :: rest) = p.2 ++ idxAddrs rest := rfl
    rw [hsplit] at hnd hbd
    have hndp := (List.nodup_append.mp hnd).1
    have hndr := (List.nodup_append.mp hnd).2.1
    have hdisj := (List.nodup_append.mp hnd).2.2
    simp only [List.foldl_cons]
    rcases List.mem_cons.mp hmem with rfl | hmem2
    · -- this pair scores address a; later pairs never touch it again
      have hsk : scoreKey cc st (w, addrs) = addrs.foldl (scoreAddr cc w) st := by
        unfold scoreKey
        dsimp only
        rw [if_neg (by omega), if_neg (by omega)]
      have hnot : a ∉ idxAddrs rest := fun hh => hdisj ha hh
      rw [scoreKeys_fold_notmem cc rest _ a hnot, hsk]
      exact scoreFoldAddrs_getD_mem cc w addrs st a ha hndp
        (hbd a (List.mem_append_left _ ha))
    · have haidx : a ∈ idxAddrs rest := mem_idxAddrs hmem2 ha
      have hnotp : a ∉ p.2 := fun hh => hdisj hh haidx
      have hpre : (scoreKey cc st p).getD a defaultEntry = st.getD a defaultEntry :=
        scoreKey_getD_notmem cc st p a hnotp
      have hbd2 : ∀ x ∈ idxAddrs rest, x < (scoreKey cc st p).length := by
        rw [scoreKey_length]
        exact fun x hx => hbd x (List.mem_append_right _ hx)
      rw [ih _ hndr hbd2 hmem2, hpre]

theorem lookup_cases (pinyinOf : String → List String)
    (translate : String → Except String String) (dh : DH) (q : String) :
    (lookup pinyinOf translate dh q = (Except.ok (not_found q), dh)) ∨
    (∃ out, sort_by_frequency
        (((exact_lookup dh q).getD []).map (fun a => dh.store.getD a defaultEntry)) q
          = some out ∧
      lookup pinyinOf translate dh q =
        (Except.ok { found := true, query := q,
                     entries := List.range' dh.store.length out.length,
                     count := out.length, message := none },
          { dh with store := dh.store ++ out })) ∨
    (∃ t, translate q = Except.ok t ∧
      lookup pinyinOf translate dh q =
        (Except.ok { found := true, query := q,
                     entries := [dh.store.length], count := 1, message := none },
          { dh with store := dh.store ++
              [{ is_generated := true, simplified := q, traditional := q,
                 pinyin := sjoin " " (pinyinOf q), definitions := [t],
                 message := "Phrase not in dictionary; generated via OPUS-MT.",
                 confidence := some "generated" }] })) ∨
    (∃ err, (lookup pinyinOf translate dh q).1 = Except.error err) := by
  unfold lookup
  split
  · exact Or.inl rfl
  · simp only []
    split
    · split
      · rename_i out hout
        exact Or.inr (Or.inl ⟨out, hout, rfl⟩)
      · exact Or.inr (Or.inr (Or.inr ⟨"IndexError", rfl⟩))
    · split
      · split
        · rename_i err herr
          exact Or.inr (Or.inr (Or.inr ⟨err, rfl⟩))
        · rename_i t ht
          exact Or.inr (Or.inr (Or.inl ⟨t, ht, rfl⟩))
      · exact Or.inl rfl

/-! ## Claims -/

/-- C1 (corrected).  The claim asserts that a failing fallback-translator
    call still yields a well-formed generated result.  In the source,
    `lookup` calls `self._translate_phrase(chinese_word)` with no
    `try`/`except`, so the raised exception propagates to `lookup`'s
    caller.  Amended claim (proved here): for every query that contains a
    Chinese character and is absent from both indexes, if the translator
    call fails then `lookup` raises that same error to its caller — no
    generated failure entry is returned. -/
theorem claim_C1 (pinyinOf : String → List String)
    (translate : String → Except String String) (dh : DH) (q : String) (err : String)
    (hch : is_chinese q = true) (habs : exact_lookup dh q = none)
    (herr : translate q = Except.error err) :
    (lookup pinyinOf translate dh q).1 = Except.error err := by
  simp [lookup, hch, habs, herr]

/-- C1 counterexample: a query consisting of one Chinese character, an
    empty lexicon, and a translator whose load fails; `lookup` returns the
    raw error instead of a generated entry, refuting the claim as stated. -/
theorem claim_C1_counterexample :
    is_chinese "中" = true ∧ exact_lookup dhInit "中" = none ∧
    (lookup (fun _ => ["zhong1"]) (fun _ => Except.error "model load failed")
        dhInit "中").1 = Except.error "model load failed" :=
  ⟨rfl, rfl, rfl⟩

theorem claim_C1_witness :
    (lookup (fun _ => ["zhong1"]) (fun _ => Except.error "boom") dhInit "哈").1
      = Except.error "boom" :=
  claim_C1 (fun _ => ["zhong1"]) (fun _ => Except.error "boom") dhInit "哈" "boom"
    rfl rfl rfl

/-- C4 (corrected).  The claim's first half holds: the simplified-keyed
    table is consulted first, and the traditional-keyed table only when the
    headword is absent from the simplified one.  Its last part is wrong:
    when the headword is absent from both tables the source executes
    `return None`, so `_exact_lookup` returns null, not an empty sequence
    (the caller's truthiness test treats the two alike).  Amended claim
    (proved here): absent from both tables, the result is null. -/
theorem claim_C4 (dh : DH) (w : String) :
    (∀ l : List Nat, alGet dh.simplified_index w = some l → exact_lookup dh w = some l) ∧
    (alGet dh.simplified_index w = none →
      ∀ l : List Nat, alGet dh.traditional_index w = some l → exact_lookup dh w = some l) ∧
    (alGet dh.simplified_index w = none → alGet dh.traditional_index w = none →
      exact_lookup dh w = none) := by
  refine ⟨fun l h => ?_, fun h1 l h2 => ?_, fun h1 h2 => ?_⟩ <;> simp [exact_lookup, *]

/-- C4 counterexample: with both tables empty, the result for an absent
    headword is `none` (Python `None`), not the empty sequence. -/
theorem claim_C4_counterexample :
    exact_lookup dhInit "中" = none ∧ exact_lookup dhInit "中" ≠ some [] := by
  exact ⟨rfl, by decide⟩

theorem claim_C4_witness : exact_lookup dhInit "哈" = none :=
  (claim_C4 dhInit "哈").2.2 rfl rfl

/-- C5 (confirmed).  The per-line step of the load loop is a total function
    into `Option Entry`: comment lines (`#`/`%`), blank lines, lines
    without the bracket pair, and lines whose pre-bracket prefix has fewer
    than two whitespace-separated tokens all yield `none` (the embedding is
    total, so no error can escape it, matching the source's
    `try`/`except` returning `None`); and loading a file of comment lines
    plus one entry missing its closing bracket produces an index with zero
    entries. -/
theorem claim_C5 :
    (∀ l : String,
      (l.data.head? = some '#' ∨ l.data.head? = some '%' ∨ stripWs l.data = []) →
      processLine l = none) ∧
    (∀ l : String,
      (l.data.findIdx? (fun c => c = '[') = none ∨
          l.data.findIdx? (fun c => c = ']') = none) →
      processLine l = none) ∧
    (∀ (l : String) (bs : Nat), l.data.findIdx? (fun c => c = '[') = some bs →
      (pyWords (l.data.take bs)).length < 2 → processLine l = none) ∧
    buildFromLines ["# CC-CEDICT comment", "% another comment",
        "咖啡 咖啡 [ka1 fei1 /coffee/"] = dhInit := by
  refine ⟨fun l h => ?_, fun l h => ?_, fun l bs hbs hw => ?_, by rfl⟩
  · have hs : lineSkipped l = true := by
      unfold lineSkipped
      cases hd : l.data with
      | nil => rcases h with h | h | h <;> simp_all [stripWs]
      | cons a t =>
        rcases h with h | h | h
        · rw [hd] at h; cases h; simp
        · rw [hd] at h; cases h; simp
        · rw [hd] at h; simp [h]
    simp [processLine, hs]
  · unfold processLine
    split
    · rfl
    · rcases h with h | h
      · simp [parse_line, h]
      · cases h1 : l.data.findIdx? (fun c => c = '[') <;> simp [parse_line, h, h1]
  · unfold processLine
    split
    · rfl
    · cases hbe : l.data.findIdx? (fun c => c = ']')
      · simp [parse_line, hbe]
      · rcases hword : pyWords (l.data.take bs) with _ | ⟨a, _ | ⟨b, t⟩⟩
        · simp [parse_line, hbs, hbe, hword]
        · simp [parse_line, hbs, hbe, hword]
        · rw [hword] at hw; simp only [List.length_cons] at hw; omega

theorem claim_C5_witness : processLine "# a comment line [with] brackets" = none :=
  claim_C5.1 "# a comment line [with] brackets" (Or.inl rfl)

/-- C6 (corrected).  The claim's waiting behaviour holds in part: a caller
    that observes `loading_lock` set performs exactly one cooperative
    sleep (`eventlet.sleep(0.1)`) and then proceeds to re-check the
    translator.  But the boolean flag provides no mutual exclusion: after
    the sleep the second caller re-reads `translator` (still `None` while
    the first load is in flight), sets the flag again, and starts a second
    concurrent load — see the counterexample trace.  Amended claim (proved
    here): a second caller observing the Loading state yields once before
    proceeding; it is not prevented from starting a second load. -/
theorem claim_C6 (s : GWState) (h : s.pcA = GPC.readLock) (hl : s.lock = true) :
    (gwStep s true).pcA = GPC.doSleep ∧
    (gwStep (gwStep s true) true).pcA = GPC.readTr := by
  constructor <;> simp [gwStep, threadStep, h, hl]

/-- C6 counterexample: caller A acquires the flag and is loading; caller B
    observes the Loading state (and sleeps), then also reaches the load —
    two loads are in flight at once, refuting mutual exclusion. -/
theorem claim_C6_counterexample :
    (gwRun gwInit [true, true, true, false]).pcB = GPC.doSleep ∧
    (gwRun gwInit [true, true, true, false]).pcA = GPC.doLoad ∧
    (gwRun gwInit [true, true, true, false, false, false, false]).pcA = GPC.doLoad ∧
    (gwRun gwInit [true, true, true, false, false, false, false]).pcB = GPC.doLoad :=
  ⟨rfl, rfl, rfl, rfl⟩

theorem claim_C6_witness :
    (gwStep ⟨true, false, GPC.readLock, GPC.doLoad⟩ true).pcA = GPC.doSleep ∧
    (gwStep (gwStep ⟨true, false, GPC.readLock, GPC.doLoad⟩ true) true).pcA
      = GPC.readTr :=
  claim_C6 ⟨true, false, GPC.readLock, GPC.doLoad⟩ rfl rfl

/-- C7 (corrected).  Order preservation holds: a parsed entry's
    `definitions` are exactly the non-empty, non-`CL:` gloss fragments, in
    their original order.  Duplicate suppression does not: the source
    appends every fragment unconditionally, so a repeated gloss is kept —
    see the counterexample.  Amended claim (proved here): `definitions`
    preserves the original order of the gloss fragments and keeps
    duplicates. -/
theorem claim_C7 (line : String) (bs be : Nat) (e : Entry)
    (hbs : line.data.findIdx? (fun c => c = '[') = some bs)
    (hbe : line.data.findIdx? (fun c => c = ']') = some be)
    (he : parse_line line = some e) :
    e.definitions =
      (((splitOnChar '/' (stripSlashes (stripWs (line.data.drop (be + 1))))).map
          stripWs).filter (fun m => !m.isEmpty && !isCLFrag m)).map
        (fun w => (⟨w⟩ : String)) := by
  simp only [parse_line, hbs, hbe] at he
  rcases hword : pyWords (line.data.take bs) with _ | ⟨a, _ | ⟨b, t⟩⟩ <;>
    rw [hword] at he
  · simp at he
  · simp at he
  · simp only [Option.some.injEq] at he
    subst he
    simp only []
    rw [clStep_fold]
    simp

/-- C7 counterexample: a line whose gloss list repeats `foo`; the parsed
    entry's definitions contain the duplicate, refuting suppression. -/
theorem claim_C7_counterexample :
    Option.map Entry.definitions (parse_line "X Y [a] /foo/foo/") = some ["foo", "foo"] ∧
    ¬ (["foo", "foo"] : List String).Nodup := by
  exact ⟨rfl, by decide⟩

theorem claim_C7_witness :
    ({ is_generated := false, simplified := "Y", traditional := "X", pinyin := "a",
       definitions := ["foo", "foo"], message := "Phrase found in dictionary",
       classifier := some none, char_count := some 1, is_compound := some false,
       frequency_score := none, sort_score := none, confidence := none } : Entry).definitions
      = (((splitOnChar '/' (stripSlashes (stripWs (("X Y [a] /foo/foo/" : String).data.drop
          (6 + 1))))).map stripWs).filter (fun m => !m.isEmpty && !isCLFrag m)).map
        (fun w => (⟨w⟩ : String)) :=
  claim_C7 "X Y [a] /foo/foo/" 4 6 _ rfl rfl rfl

/-- C8 (confirmed).  No lookup mutates the lexicon: the three index tables
    are returned unchanged and the original heap is a prefix of the
    resulting heap (stored entries, including their `frequency_score`
    fields, are untouched — `_sort_by_frequency` annotates `entry.copy()`
    objects, which the embedding appends after the existing heap). -/
theorem claim_C8 (pinyinOf : String → List String)
    (translate : String → Except String String) (dh : DH) (q : String) :
    (lookup pinyinOf translate dh q).2.simplified_index = dh.simplified_index ∧
    (lookup pinyinOf translate dh q).2.traditional_index = dh.traditional_index ∧
    (lookup pinyinOf translate dh q).2.compound_count = dh.compound_count ∧
    (lookup pinyinOf translate dh q).2.store.take dh.store.length = dh.store := by
  unfold lookup
  split
  · exact ⟨rfl, rfl, rfl, by simp⟩
  · simp only []
    split
    · split
      · exact ⟨rfl, rfl, rfl, by simp [List.take_left]⟩
      · exact ⟨rfl, rfl, rfl, by simp⟩
    · split
      · split
        · exact ⟨rfl, rfl, rfl, by simp⟩
        · exact ⟨rfl, rfl, rfl, by simp [List.take_left]⟩
      · exact ⟨rfl, rfl, rfl, by simp⟩

/-- C9 (confirmed).  Every result actually returned by `lookup` (the
    non-raising paths) satisfies `count = len(entries)` and
    `found ↔ entries ≠ []`. -/
theorem claim_C9 (pinyinOf : String → List String)
    (translate : String → Except String String) (dh : DH) (q : String)
    (r : LookupResult) (h : (lookup pinyinOf translate dh q).1 = Except.ok r) :
    r.count = r.entries.length ∧ (r.found = true ↔ r.entries ≠ []) := by
  unfold lookup at h
  split at h
  · cases h; simp [not_found]
  · simp only [] at h
    cases hel : ((exact_lookup dh q).getD []).isEmpty with
    | true =>
      rw [hel] at h
      simp only [Bool.not_true] at h
      rw [if_neg (by decide)] at h
      split at h
      · split at h
        · simp at h
        · simp only [] at h
          cases h
          simp
      · cases h; simp [not_found]
    | false =>
      rw [hel] at h
      simp only [Bool.not_false] at h
      simp only [if_true] at h
      split at h
      · rename_i sortedEntries hsort
        have hlen := applyLabels_some_length (hsort : applyLabels _ = some _)
        cases h
        refine ⟨by simp, ?_⟩
        constructor
        · intro _
          exact List.ne_nil_of_length_pos (by simp [hlen.2])
        · intro _; rfl
      · simp at h

theorem claim_C9_witness :
    (not_found "hello").count = (not_found "hello").entries.length ∧
      ((not_found "hello").found = true ↔ (not_found "hello").entries ≠ []) :=
  claim_C9 (fun _ => []) (fun _ => Except.ok "t") dhInit "hello" (not_found "hello") rfl


/-- C3 (confirmed).  For a single-character query with a non-empty entry
    list, the ranking step returns the annotated copies sorted by
    `frequency_score` in descending order; the sort is stable (the entries
    of any fixed score appear in their original insertion order, stated via
    the annotation-erasing projection); when the top score is positive the
    top entry is labeled "most common" and every other entry
    "less common"; when the top score is 0 and there are multiple entries
    every entry is labeled "see all meanings"; a single-entry list is
    labeled "only meaning". -/
theorem claim_C3 (entries : List Entry) (word : String) (out : List Entry)
    (hw : word.length = 1) (hsort : sort_by_frequency entries word = some out) :
    out.Pairwise (fun x y => y.frequency_score.getD 0 ≤ x.frequency_score.getD 0) ∧
    (∀ k : Nat,
      (out.filter (fun e => e.frequency_score.getD 0 = k)).map eraseAnn =
      (entries.filter (fun e => e.frequency_score.getD 0 = k)).map eraseAnn) ∧
    (∀ e0 t, out = e0 :: t → t ≠ [] →
      (0 < e0.frequency_score.getD 0 →
        e0.confidence = some "most common" ∧
        ∀ x ∈ t, x.confidence = some "less common") ∧
      (e0.frequency_score.getD 0 = 0 →
        ∀ x ∈ out, x.confidence = some "see all meanings")) ∧
    (∀ e0, out = [e0] → e0.confidence = some "only meaning") := by
  have hsort2 : applyLabels ((entries.map (copyScore word)).mergeSort sortLE) = some out :=
    hsort
  have hQ : ∀ x ∈ entries.map (copyScore word),
      x.sort_score = some (x.frequency_score.getD 0) := by
    intro x hx
    rcases List.mem_map.mp hx with ⟨e, _, rfl⟩
    simp [copyScore, hw]
  have hkey : ∀ x ∈ (entries.map (copyScore word)).mergeSort sortLE,
      sortKey x = x.frequency_score.getD 0 := by
    intro x hx
    have := hQ x (List.mem_mergeSort.mp hx)
    simp [sortKey, this]
  have hsorted : ((entries.map (copyScore word)).mergeSort sortLE).Pairwise
      (fun x y => sortLE x y) :=
    List.sorted_mergeSort sortLE_trans sortLE_total _
  have hfreqS : ((entries.map (copyScore word)).mergeSort sortLE).Pairwise
      (fun x y => y.frequency_score.getD 0 ≤ x.frequency_score.getD 0) := by
    refine List.Pairwise.imp_of_mem ?_ hsorted
    intro a b ha hb hab
    have hka := hkey a ha
    have hkb := hkey b hb
    simp only [sortLE, decide_eq_true_eq] at hab
    omega
  refine ⟨?_, ?_, ?_, ?_⟩
  · have hm : (((entries.map (copyScore word)).mergeSort sortLE).map
        Entry.frequency_score).Pairwise (fun a b => b.getD 0 ≤ a.getD 0) :=
      List.pairwise_map.mpr hfreqS
    rw [← applyLabels_freq hsort2] at hm
    exact List.pairwise_map.mp hm
  · intro k
    -- the elements with a fixed score are mutually tied, hence a sorted
    -- sublist of the input; merge sort keeps them in source order
    have hcP : ∀ x ∈ (entries.map (copyScore word)).filter
        (fun e => decide (e.frequency_score.getD 0 = k)), sortKey x = k := by
      intro x hx
      have hxA := List.mem_of_mem_filter hx
      have hxP := List.of_mem_filter hx
      have hq := hQ x hxA
      simp only [decide_eq_true_eq] at hxP
      simp [sortKey, hq, hxP]
    have hpw : ((entries.map (copyScore word)).filter
        (fun e => decide (e.frequency_score.getD 0 = k))).Pairwise
          (fun x y => sortLE x y) := by
      refine List.pairwise_of_forall_mem_list ?_
      intro a ha b hb
      show sortLE a b = true
      simp only [sortLE, decide_eq_true_eq, hcP a ha, hcP b hb, le_refl]
    have hsub : List.Sublist
        ((entries.map (copyScore word)).filter
          (fun e => decide (e.frequency_score.getD 0 = k)))
        ((entries.map (copyScore word)).mergeSort sortLE) :=
      List.sublist_mergeSort sortLE_trans sortLE_total hpw (List.filter_sublist _)
    have hperm : List.Perm
        (((entries.map (copyScore word)).mergeSort sortLE).filter
          (fun e => decide (e.frequency_score.getD 0 = k)))
        ((entries.map (copyScore word)).filter
          (fun e => decide (e.frequency_score.getD 0 = k))) :=
      (List.mergeSort_perm _ sortLE).filter _
    have hflt : ((entries.map (copyScore word)).mergeSort sortLE).filter
        (fun e => decide (e.frequency_score.getD 0 = k)) =
        (entries.map (copyScore word)).filter
          (fun e => decide (e.frequency_score.getD 0 = k)) := by
      have hself : ((entries.map (copyScore word)).filter
          (fun e => decide (e.frequency_score.getD 0 = k))).filter
            (fun e => decide (e.frequency_score.getD 0 = k)) =
          (entries.map (copyScore word)).filter
            (fun e => decide (e.frequency_score.getD 0 = k)) :=
        by refine List.filter_eq_self.mpr fun a ha => ?_
           simpa using List.of_mem_filter ha
      have hsub2 : List.Sublist
          ((entries.map (copyScore word)).filter
            (fun e => decide (e.frequency_score.getD 0 = k)))
          (((entries.map (copyScore word)).mergeSort sortLE).filter
            (fun e => decide (e.frequency_score.getD 0 = k))) := by
        rw [← hself]
        exact List.Sublist.filter _ hsub
      exact (hsub2.eq_of_length hperm.length_eq.symm).symm
    calc (out.filter (fun e => e.frequency_score.getD 0 = k)).map eraseAnn
        = (out.filter ((fun e : Entry => decide (e.frequency_score.getD 0 = k)) ∘
            eraseAnn)).map eraseAnn :=
          congrArg (List.map eraseAnn) (List.filter_congr fun a _ => rfl)
      _ = (out.map eraseAnn).filter (fun e => decide (e.frequency_score.getD 0 = k)) :=
          (List.filter_map eraseAnn out).symm
      _ = (((entries.map (copyScore word)).mergeSort sortLE).map eraseAnn).filter
            (fun e => decide (e.frequency_score.getD 0 = k)) := by
          rw [applyLabels_eraseAnn hsort2]
      _ = (((entries.map (copyScore word)).mergeSort sortLE).filter
            ((fun e : Entry => decide (e.frequency_score.getD 0 = k)) ∘
              eraseAnn)).map eraseAnn :=
          List.filter_map eraseAnn _
      _ = (((entries.map (copyScore word)).mergeSort sortLE).filter
            (fun e => decide (e.frequency_score.getD 0 = k))).map eraseAnn :=
          congrArg (List.map eraseAnn) (List.filter_congr fun a _ => rfl)
      _ = ((entries.map (copyScore word)).filter
            (fun e => decide (e.frequency_score.getD 0 = k))).map eraseAnn := by
          rw [hflt]
      _ = ((entries.filter ((fun e : Entry => decide (e.frequency_score.getD 0 = k)) ∘
            copyScore word)).map (copyScore word)).map eraseAnn := by
          rw [List.filter_map]
      _ = (entries.filter ((fun e : Entry => decide (e.frequency_score.getD 0 = k)) ∘
            copyScore word)).map (eraseAnn ∘ copyScore word) := by
          rw [List.map_map]
      _ = (entries.filter (fun e => decide (e.frequency_score.getD 0 = k))).map
            (eraseAnn ∘ copyScore word) :=
          congrArg _ (List.filter_congr fun a _ => rfl)
      _ = (entries.filter (fun e => e.frequency_score.getD 0 = k)).map eraseAnn :=
          List.map_congr_left fun x _ => rfl
  · intro e0 t0 hout ht0
    rcases hSs : (entries.map (copyScore word)).mergeSort sortLE with _ | ⟨a, _ | ⟨b, t⟩⟩ <;>
      rw [hSs] at hsort2
    · simp [applyLabels] at hsort2
    · simp only [applyLabels, Option.some.injEq] at hsort2
      rw [← hsort2] at hout
      injection hout with he ht
      exact absurd ht.symm ht0
    · have hamem : a ∈ (entries.map (copyScore word)).mergeSort sortLE := by
        rw [hSs]; exact List.mem_cons_self a _
      have hka : sortKey a = a.frequency_score.getD 0 := hkey a hamem
      simp only [applyLabels] at hsort2
      split at hsort2
      · rename_i hpos0
        cases hsort2
        injection hout with he ht
        constructor
        · intro _
          subst he
          refine ⟨rfl, ?_⟩
          intro x hx
          rw [← ht] at hx
          rcases List.mem_cons.mp hx with rfl | hx2
          · rfl
          · rcases List.mem_map.mp hx2 with ⟨y, _, rfl⟩
            rfl
        · intro h0
          subst he
          have h0a : a.frequency_score.getD 0 = 0 := h0
          rw [hka] at hpos0
          omega
      · rename_i hpos0
        cases hsort2
        injection hout with he ht
        constructor
        · intro hpos
          subst he
          have hposa : 0 < a.frequency_score.getD 0 := hpos
          rw [hka] at hpos0
          omega
        · intro _
          intro x hx
          rcases List.mem_cons.mp hx with rfl | hx2
          · rfl
          · rcases List.mem_cons.mp hx2 with rfl | hx3
            · rfl
            · rcases List.mem_map.mp hx3 with ⟨y, _, rfl⟩
              rfl
  · intro e0 hout
    rcases hSs : (entries.map (copyScore word)).mergeSort sortLE with _ | ⟨a, _ | ⟨b, t⟩⟩ <;>
      rw [hSs] at hsort2
    · simp [applyLabels] at hsort2
    · simp only [applyLabels, Option.some.injEq] at hsort2
      rw [← hsort2] at hout
      injection hout with he ht
      rw [← he]
    · simp only [applyLabels] at hsort2
      split at hsort2 <;> cases hsort2 <;>
        (have hlen := congrArg List.length hout
         simp only [List.length_cons, List.length_map, List.length_nil] at hlen
         omega)

theorem claim_C3_witness :
    ([{ sampleHigh with sort_score := some 5, confidence := some "most common" },
      { sampleLow with sort_score := some 1, confidence := some "less common" }] :
        List Entry).Pairwise
      (fun x y => y.frequency_score.getD 0 ≤ x.frequency_score.getD 0) := by
  have hms : ([copyScore "打" sampleHigh, copyScore "打" sampleLow]).mergeSort sortLE
      = [copyScore "打" sampleHigh, copyScore "打" sampleLow] :=
    List.mergeSort_of_sorted (by decide)
  have hsort : sort_by_frequency [sampleHigh, sampleLow] "打" =
      some [{ sampleHigh with sort_score := some 5, confidence := some "most common" },
            { sampleLow with sort_score := some 1, confidence := some "less common" }] := by
    unfold sort_by_frequency
    simp only [List.map_cons, List.map_nil]
    rw [hms]
    decide
  exact (claim_C3 [sampleHigh, sampleLow] "打" _ rfl hsort).1

/-- C2 (confirmed).  After the two-phase build (index everything, then
    score), every entry of a single-character headword with more than one
    indexed entry has `frequency_score` equal to the number of compound
    input entries (simplified form longer than one character) whose
    simplified form begins with that character and whose (normalized,
    as stored) romanization equals the entry's romanization.  The two-phase
    structure is the definition of `buildFrom`: `_calculate_frequency_scores`
    runs on the state produced by indexing the whole input. -/
theorem claim_C2 (es : List Entry)
    (hshape : ∀ e ∈ es, e.is_compound = some (decide (1 < e.simplified.length)))
    (w : String) (addrs : List Nat)
    (hidx : alGet (buildFrom es).simplified_index w = some addrs)
    (hw : w.length = 1) (hmulti : 1 < addrs.length)
    (a : Nat) (ha : a ∈ addrs) :
    ((buildFrom es).store.getD a defaultEntry).frequency_score =
      some ((es.filter (fun e => decide (1 < e.simplified.length) &&
        decide (firstCharStr e.simplified = w) &&
        decide (e.pinyin =
          ((buildFrom es).store.getD a defaultEntry).pinyin))).length) := by
  have hsi : (buildFrom es).simplified_index =
      (es.foldl index_entry dhInit).simplified_index := rfl
  have hst : (buildFrom es).store =
      (es.foldl index_entry dhInit).simplified_index.foldl
        (scoreKey (es.foldl index_entry dhInit).compound_count)
        (es.foldl index_entry dhInit).store := rfl
  rw [hsi] at hidx
  have hpair := alGet_mem hidx
  have hinv := index_inv es dhInit (by simp [dhInit, idxAddrs]) (by simp [dhInit, idxAddrs])
  have hmain := scoreKeys_fold (es.foldl index_entry dhInit).compound_count
    (es.foldl index_entry dhInit).simplified_index
    (es.foldl index_entry dhInit).store w addrs a hinv.1 hinv.2 hpair hw hmulti ha
  rw [hst, hmain]
  simp only []
  have hcnt := cc_fold es dhInit
    (w, ((es.foldl index_entry dhInit).store.getD a defaultEntry).pinyin)
  rw [show (alGet dhInit.compound_count
      (w, ((es.foldl index_entry dhInit).store.getD a defaultEntry).pinyin)).getD 0 = 0
    from rfl, Nat.zero_add] at hcnt
  rw [hcnt]
  have hfe : es.filter (fun e => e.is_compound.getD false &&
      decide ((firstCharStr e.simplified, e.pinyin) =
        (w, ((es.foldl index_entry dhInit).store.getD a defaultEntry).pinyin))) =
      es.filter (fun e => decide (1 < e.simplified.length) &&
        decide (firstCharStr e.simplified = w) &&
        decide (e.pinyin =
          ((es.foldl index_entry dhInit).store.getD a defaultEntry).pinyin)) := by
    apply List.filter_congr
    intro e he
    rw [hshape e he]
    simp [Prod.mk.injEq, Bool.and_assoc]
  rw [hfe]

theorem claim_C2_witness :
    ((buildFrom [sampleHigh, sampleLow, sampleCompound]).store.getD 0
        defaultEntry).frequency_score =
      some (([sampleHigh, sampleLow, sampleCompound].filter (fun e =>
        decide (1 < e.simplified.length) &&
        decide (firstCharStr e.simplified = "打") &&
        decide (e.pinyin = ((buildFrom [sampleHigh, sampleLow, sampleCompound]).store.getD 0
          defaultEntry).pinyin))).length) :=
  claim_C2 [sampleHigh, sampleLow, sampleCompound] (by decide) "打" [0, 1]
    (by decide) (by decide) (by decide) 0 (by decide)

/-- C10 (confirmed).  Every generated entry returned by `lookup`
    (`is_generated = true`, possible only on the fallback path when the
    stored lexicon entries are all parser-produced) carries
    `confidence = "generated"` and has none of the `classifier`,
    `char_count`, `is_compound`, `frequency_score` keys; entries produced
    by the line parser always carry the `classifier`, `char_count` and
    `is_compound` keys (and are never generated). -/
theorem claim_C10 :
    (∀ (pinyinOf : String → List String) (translate : String → Except String String)
        (dh : DH) (q : String) (r : LookupResult),
      (∀ e ∈ dh.store, e.is_generated = false) →
      (lookup pinyinOf translate dh q).1 = Except.ok r →
      ∀ a ∈ r.entries,
        ((lookup pinyinOf translate dh q).2.store.getD a defaultEntry).is_generated = true →
        ((lookup pinyinOf translate dh q).2.store.getD a defaultEntry).confidence
            = some "generated" ∧
        ((lookup pinyinOf translate dh q).2.store.getD a defaultEntry).classifier = none ∧
        ((lookup pinyinOf translate dh q).2.store.getD a defaultEntry).char_count = none ∧
        ((lookup pinyinOf translate dh q).2.store.getD a defaultEntry).is_compound = none ∧
        ((lookup pinyinOf translate dh q).2.store.getD a defaultEntry).frequency_score
            = none) ∧
    (∀ (line : String) (e : Entry), parse_line line = some e →
      e.classifier.isSome ∧ e.char_count = some e.simplified.length ∧
      e.is_compound = some (decide (1 < e.simplified.length)) ∧
      e.is_generated = false) := by
  constructor
  · intro pinyinOf translate dh q r hwf h a ha hgen
    rcases lookup_cases pinyinOf translate dh q with hc | ⟨out, hsf, hc⟩ | ⟨t, ht, hc⟩ | ⟨err, hc⟩
    · rw [hc] at h
      simp only [] at h
      cases h
      simp [not_found] at ha
    · -- ranked path: every returned entry is a copy of a stored entry
      have hfalse : ∀ x ∈ out, x.is_generated = false := by
        intro x hx
        have hx2 : eraseAnn x ∈ out.map eraseAnn := List.mem_map_of_mem _ hx
        rw [applyLabels_eraseAnn (hsf : applyLabels _ = some _)] at hx2
        rcases List.mem_map.mp hx2 with ⟨y, hy, hxy⟩
        have hy2 := List.mem_mergeSort.mp hy
        rcases List.mem_map.mp hy2 with ⟨z, hz, rfl⟩
        rcases List.mem_map.mp hz with ⟨b, _, rfl⟩
        have hzb : (dh.store.getD b defaultEntry).is_generated = false := by
          by_cases hb : b < dh.store.length
          · rw [List.getD_eq_getElem?_getD, List.getElem?_eq_getElem hb]
            exact hwf _ (List.getElem_mem hb)
          · rw [List.getD_eq_getElem?_getD, List.getElem?_eq_none (by omega)]
            rfl
        have hg := congrArg Entry.is_generated hxy
        show (eraseAnn x).is_generated = false
        rw [← hg]
        show (dh.store.getD b defaultEntry).is_generated = false
        exact hzb
      rw [hc] at h
      simp only [] at h
      cases h
      simp only [] at ha
      rw [hc] at hgen
      simp only [] at hgen
      rcases List.mem_range'.mp ha with ⟨i, hi, rfl⟩
      have hil : dh.store.length + 1 * i = dh.store.length + i := by omega
      rw [hil] at hgen
      have hread : ((dh.store ++ out).getD (dh.store.length + i) defaultEntry)
          = out.getD i defaultEntry := by
        rw [List.getD_eq_getElem?_getD, List.getD_eq_getElem?_getD,
          List.getElem?_append_right (Nat.le_add_right _ _), Nat.add_sub_cancel_left]
      rw [hread] at hgen
      have hmem : out.getD i defaultEntry ∈ out := by
        rw [List.getD_eq_getElem?_getD,
          List.getElem?_eq_getElem (show i < out.length by omega)]
        exact List.getElem_mem _
      exact absurd hgen (by rw [hfalse _ hmem]; simp)
    · rw [hc] at h
      simp only [] at h
      cases h
      simp only [] at ha
      rcases List.mem_singleton.mp ha with rfl
      rw [hc]
      simp only []
      have hread : ((dh.store ++ [({ is_generated := true, simplified := q, traditional := q,
                                     pinyin := sjoin " " (pinyinOf q), definitions := [t],
                                     message := "Phrase not in dictionary; generated via OPUS-MT.",
                                     classifier := none, char_count := none, is_compound := none,
                                     frequency_score := none, sort_score := none,
                                     confidence := some "generated" } : Entry)]).getD
            dh.store.length defaultEntry)
          = { is_generated := true, simplified := q, traditional := q,
              pinyin := sjoin " " (pinyinOf q), definitions := [t],
              message := "Phrase not in dictionary; generated via OPUS-MT.",
              classifier := none, char_count := none, is_compound := none,
              frequency_score := none, sort_score := none,
              confidence := some "generated" } := by
        rw [List.getD_eq_getElem?_getD, List.getElem?_append_right (by omega)]
        simp
      rw [hread]
      exact ⟨rfl, rfl, rfl, rfl, rfl⟩
    · rw [hc] at h
      cases h
  · intro line e he
    cases hbs : line.data.findIdx? (fun c => c = '[') with
    | none => simp [parse_line, hbs] at he
    | some bs =>
      cases hbe : line.data.findIdx? (fun c => c = ']') with
      | none => simp [parse_line, hbs, hbe] at he
      | some be =>
        simp only [parse_line, hbs, hbe] at he
        rcases hword : pyWords (line.data.take bs) with _ | ⟨t1, _ | ⟨t2, ts⟩⟩ <;>
          rw [hword] at he
        · simp at he
        · simp at he
        · simp only [Option.some.injEq] at he
          subst he
          exact ⟨rfl, rfl, rfl, rfl⟩

theorem claim_C10_witness :
    (Option.getD (parse_line "一 一 [yi1] /one/") defaultEntry).is_generated = false :=
  (claim_C10.2 "一 一 [yi1] /one/"
    (Option.getD (parse_line "一 一 [yi1] /one/") defaultEntry) rfl).2.2.2

end DictSpec
